import Mathlib

/-! go-releaser: path resolution and command dispatch

A shallow embedding of `cmd/main.go` together with the parts of the Go
standard library (unix build) that it calls: `path/filepath` (`Clean`, `Join`,
`IsAbs`, `Abs`), `strings` (`HasPrefix`, `Join`), `os.UserHomeDir`, and the
`flag` package's command-line parser for the single string flag `-f`.

Go strings are modelled by Lean `String`s. Every byte the code inspects
(`/`, `.`, `~`, `-`, `=`) is ASCII and never occurs inside a multi-byte UTF-8
sequence, so processing characters agrees with Go's processing of bytes on
every valid UTF-8 string.
-/

namespace GoReleaser

/-! ## Constants and the error type of `main.go` -/

def SUCCESS : Int := 0
def EXIT_FAILURE : Int := 1
def EINVAL : Int := 2
def EIO : Int := 5
def EACCES : Int := 13

/-- The `StatusErr` struct. -/
structure StatusErr where
  Status : Int
  Message : String
deriving DecidableEq, Repr

/-- A value of Go's `error` interface: either a `StatusErr` or an error of some
other dynamic type (of which only the message is kept). -/
inductive GoError where
  | statusErr (e : StatusErr)
  | other (msg : String)
deriving DecidableEq, Repr

/-- The process environment the program queries: the value of `$HOME` (empty
when unset) and the outcome of `os.Getwd()` (the error's text on failure);
`rangeOrder` is the order in which `range allowedFirstArgs` yields the keys;
the last three fields are the link-time application variables. -/
structure Env where
  HOME : String
  Getwd : Except String String
  rangeOrder : List String
  version : String
  commitHash : String
  description : String

/-! ## `strings` and `os` -/

/-- Go `strings.HasPrefix`. -/
def HasPrefix (s pre : String) : Bool := pre.data.isPrefixOf s.data

/-- Go `strings.Join`. -/
def stringsJoin : List String → String → String
  | [], _ => ""
  | [a], _ => a
  | a :: b :: rest, sep => a ++ sep ++ stringsJoin (b :: rest) sep

/-- Go `os.UserHomeDir` on unix: the value of `$HOME` when it is not empty. -/
def UserHomeDir (env : Env) : Except String String :=
  if env.HOME ≠ "" then .ok env.HOME else .error "$HOME is not defined"

/-! ## `path/filepath` (unix) -/

abbrev Separator : Char := '/'

/-- Go `os.IsPathSeparator`. -/
abbrev IsPathSeparator (c : Char) : Prop := c = Separator

/-- The backtracking of `Clean` at a `..` element. The output buffer is kept as
the list of the bytes written so far, the last written first, so that `out.w`
is its length, `out.w--` drops its head and `out.index(out.w)` after a
decrement is the byte just dropped:
`out.w--; for out.w > dotdot && !IsPathSeparator(out.index(out.w)) { out.w-- }`. -/
def backtrack (dotdot : Nat) : List Char → List Char
  | [] => []
  | c :: out => if out.length > dotdot ∧ ¬ IsPathSeparator c then backtrack dotdot out else out

/-- The main loop of `filepath.Clean`: `path` is the unread input `path[r:]`,
`out` the output buffer (last written byte first), `dotdot` the index where
`..` must stop. Each iteration consumes at least one byte, so `len(path)`
iterations always suffice (`cleanLoop_fuel`). -/
def cleanLoop (rooted : Bool) : Nat → List Char → List Char → Nat → List Char
  | 0, _, out, _ => out
  | _ + 1, [], out, _ => out
  | fuel + 1, c :: t, out, dotdot =>
    if IsPathSeparator c then
      -- empty path element
      cleanLoop rooted fuel t out dotdot
    else if c = '.' ∧ (t = [] ∨ t.head? = some Separator) then
      -- . element
      cleanLoop rooted fuel t out dotdot
    else if c = '.' ∧ t.head? = some '.' ∧ (t.tail = [] ∨ t.tail.head? = some Separator) then
      -- .. element: remove to last separator
      if out.length > dotdot then
        -- can backtrack
        cleanLoop rooted fuel t.tail (backtrack dotdot out) dotdot
      else if rooted = false then
        -- cannot backtrack, but not rooted, so append .. element.
        let out1 := if out.length > 0 then Separator :: out else out
        let out2 := '.' :: '.' :: out1
        cleanLoop rooted fuel t.tail out2 out2.length
      else
        cleanLoop rooted fuel t.tail out dotdot
    else
      -- real path element: add slash if needed, then copy the element
      let out1 :=
        if (rooted = true ∧ out.length ≠ 1) ∨ (rooted = false ∧ out.length ≠ 0) then Separator :: out
        else out
      cleanLoop rooted fuel ((c :: t).dropWhile (fun x => x ≠ Separator))
        (((c :: t).takeWhile (fun x => x ≠ Separator)).reverse ++ out1) dotdot

/-- Go `filepath.Clean` (unix: no volume name, `FromSlash` is the identity). -/
def Clean (path : String) : String :=
  if path = "" then "."
  else
    let rooted : Bool := decide (path.data.head? = some Separator)
    let n := path.data.length
    let out0 : List Char := if rooted then [Separator] else []
    let r : Nat := if rooted then 1 else 0
    let out := cleanLoop rooted n (path.data.drop r) out0 r
    -- Turn empty string into "."
    let out := if out.length = 0 then ['.'] else out
    ⟨out.reverse⟩

/-- Go `filepath.Join` (unix). -/
def Join : List String → String
  | [] => ""
  | e :: rest => if e ≠ "" then Clean (stringsJoin (e :: rest) "/") else Join rest

/-- Go `filepath.IsAbs` (unix). -/
def IsAbs (path : String) : Bool := HasPrefix path "/"

/-- Go `filepath.Abs` (unix). -/
def Abs (env : Env) (path : String) : Except String String :=
  if IsAbs path then .ok (Clean path)
  else
    match env.Getwd with
    | .error err => .error err
    | .ok wd => .ok (Join [wd, path])

/-! ## `main.go` -/

/-- The function `resolvePath`. -/
def resolvePath (env : Env) (path : String) : String × Option GoError :=
  if path = "" then
    ("", some (.statusErr { Status := EINVAL, Message := "path cannot be empty" }))
  else
    let tilde : Except String String :=
      if HasPrefix path "~" then
        match UserHomeDir env with
        | .error err => .error err
        | .ok homeDir =>
          if path = "~" then .ok homeDir
          else if path = "~/" then .ok (homeDir ++ String.singleton Separator)
          else if HasPrefix path "~/" then .ok (Join [homeDir, ⟨path.data.drop 2⟩])
          else .ok (Join [homeDir, ⟨path.data.drop 1⟩])
      else .ok path
    match tilde with
    | .error err =>
      ("", some (.statusErr { Status := EIO, Message := "failed to get home directory: " ++ err }))
    | .ok path =>
      match Abs env path with
      | .error err =>
        ("", some (.statusErr
          { Status := EINVAL, Message := "failed to resolve absolute path: " ++ err }))
      | .ok absPath => (Clean absPath, none)

/-- The constant `usageMessage`. -/
def usageMessage : String :=
  "Usage of \x27go-releaser\x27: go-releaser [option] [flags]\n\n" ++
  "Application used for get absolute from relative path.\n\n" ++
  "Options (only one required)\n" ++
  "    - info: info about application\n\n" ++
  "Flags (all required):\n" ++
  "\t-f <path>: relative or absolute path\n\n" ++
  "Examples:\n" ++
  "\t./go-releaser -f /var/lib/rpm/rpmdb.sqlite\n" ++
  "\t./go-releaser info"

/-- The key set of the map `allowedFirstArgs`. -/
def allowedFirstArgs : List String := ["r", "info"]

/-- The function `ConcatStr`; `allowed` lists the keys of the map in the order
in which `range` yields them. -/
def ConcatStr (allowed : List String) : String :=
  allowed.foldl (fun sb k => (if sb.length > 0 then sb ++ ", " else sb) ++ k) ""

/-- The function `ValidateFirstArg`; `order` is the iteration order of the
map `allowedFirstArgs` (Go leaves it unspecified), `none` is `nil`. -/
def ValidateFirstArg (order : List String) (arg : String) : Option StatusErr :=
  if arg ∉ allowedFirstArgs then
    some { Status := EINVAL,
           Message := "invalid positional arg1. Allowed options are: " ++ ConcatStr order }
  else none

/-- How `flag.Parse` ends: all flags parsed (with the final value of
`*fileFlag`), a parse error reported through `failf` (message printed, usage
function called), or a help request (usage function called). -/
inductive ParseResult where
  | ok (fileFlag : String)
  | fail (msg : String)
  | help
deriving DecidableEq, Repr

/-- Go `flag.(*FlagSet).Parse` with `parseOne` inlined, for the flag set of this
program: the one string flag `f`. The list is `f.args`, the string the current
value of `*fileFlag`. -/
def Parse : List String → String → ParseResult
  | [], fileFlag => .ok fileFlag
  | s :: args, fileFlag =>
    if s.data.length < 2 ∨ s.data.head? ≠ some '-' then .ok fileFlag
    else
      let numMinuses : Nat := if s.data.get? 1 = some '-' then 2 else 1
      if numMinuses = 2 ∧ s.data.length = 2 then
        -- "--" terminates the flags
        .ok fileFlag
      else
        let name := s.data.drop numMinuses
        if name.length = 0 ∨ name.head? = some '-' ∨ name.head? = some '=' then
          .fail ("bad flag syntax: " ++ s)
        else
          -- it is a flag. does it have an argument? (equals cannot be first)
          let hasValue : Bool := decide ('=' ∈ name.drop 1)
          let value := ((name.drop 1).dropWhile (fun x => x ≠ '=')).drop 1
          let name :=
            if hasValue then name.take 1 ++ (name.drop 1).takeWhile (fun x => x ≠ '=') else name
          if name ≠ ['f'] then
            if name = "help".data ∨ name = ['h'] then .help
            else .fail ("flag provided but not defined: -" ++ ⟨name⟩)
          else if hasValue then Parse args ⟨value⟩
          else
            -- It must have a value, which might be the next argument.
            match args with
            | [] => .fail ("flag needs an argument: -" ++ ⟨name⟩)
            | value :: args => Parse args value

/-- Output of `flag.PrintDefaults` for the flag `f` (usage "path to file",
empty default). -/
def printDefaults : String := "  -f string\n    \tpath to file\n"

/-- The two output streams. -/
inductive Stream where
  | stdout
  | stderr
deriving DecidableEq, Repr

/-- What a run of the process does: its exit code and the writes it made, in
order. -/
structure Proc where
  code : Int
  out : List (Stream × String)
deriving DecidableEq, Repr

/-- The function `mainImpl`, on `os.Args`. The usage function installed in
`flag.Usage` prints the usage text and the flag defaults and exits the process
with `EINVAL`; the exit code of the process is then that one. -/
def mainImpl (env : Env) (osArgs : List String) : Proc :=
  match osArgs with
  | _ :: arg :: rest =>
    match ValidateFirstArg env.rangeOrder arg with
    | some genErr => ⟨genErr.Status, [(.stderr, genErr.Message ++ "\n")]⟩
    | none =>
      if arg = "info" then
        ⟨SUCCESS, [(.stdout, "Info: " ++ env.description ++ "\nVersion: " ++ env.version ++
          "\nCommit: " ++ env.commitHash ++ "\n")]⟩
      else
        match Parse rest "" with
        | .fail msg =>
          ⟨EINVAL, [(.stderr, msg ++ "\n"), (.stderr, usageMessage ++ "\n"), (.stderr, printDefaults)]⟩
        | .help => ⟨EINVAL, [(.stderr, usageMessage ++ "\n"), (.stderr, printDefaults)]⟩
        | .ok fileFlag =>
          match resolvePath env fileFlag with
          | (_, some (.statusErr stErr)) => ⟨stErr.Status, [(.stderr, stErr.Message ++ "\n")]⟩
          | (_, some (.other _)) => ⟨EXIT_FAILURE, []⟩
          | (absPath, none) =>
            ⟨SUCCESS, [(.stdout, "Relative path: " ++ fileFlag ++ "\n"),
              (.stdout, "Absolute path: " ++ absPath ++ "\n")]⟩
  | _ => ⟨SUCCESS, [(.stderr, "no args are presented\n"), (.stdout, usageMessage ++ "\n")]⟩

/-! ## Auxiliary notions for the analysis of `Clean` -/

/-- The loop of `Clean` run on the input `p` with as many iterations as `p` has
bytes. -/
def cleanRun (rooted : Bool) (p out : List Char) (dotdot : Nat) : List Char :=
  cleanLoop rooted p.length p out dotdot

/-- A path element: a non-empty run of bytes without separator. -/
def Seg (e : List Char) : Prop := e ≠ [] ∧ Separator ∉ e

/-- An element boundary: the end of the input or a separator. -/
def Bnd (t : List Char) : Prop := t = [] ∨ t.head? = some Separator

/-- The buffer `out` with a separator added when `Clean` needs one before the
next element of a rooted path. -/
def sepRooted (out : List Char) : List Char :=
  if out.length ≠ 1 then Separator :: out else out

/-- A real path element: neither `.` nor `..`. -/
def Name (e : List Char) : Prop := Seg e ∧ e ≠ ['.'] ∧ e ≠ ['.', '.']

/-- The output buffers (last byte first) of a clean rooted path: the root,
followed by real elements separated by single separators. -/
inductive Canon : List Char → Prop where
  | root : Canon [Separator]
  | push {out e : List Char} : Canon out → Name e → Canon (e.reverse ++ sepRooted out)

/-- The elements of a path written out with single separators between them. -/
def joinNames : List (List Char) → List Char
  | [] => []
  | [e] => e
  | e :: f :: rest => e ++ Separator :: joinNames (f :: rest)

/-- The first half of `resolvePath`: the path after tilde expansion, or the
error of the home-directory lookup. -/
def tildePart (env : Env) (path : String) : Except String String :=
  if HasPrefix path "~" then
    match UserHomeDir env with
    | .error err => .error err
    | .ok homeDir =>
      if path = "~" then .ok homeDir
      else if path = "~/" then .ok (homeDir ++ String.singleton Separator)
      else if HasPrefix path "~/" then .ok (Join [homeDir, ⟨path.data.drop 2⟩])
      else .ok (Join [homeDir, ⟨path.data.drop 1⟩])
  else .ok path

/-- The process prints the usage text: one of its writes contains it. -/
def PrintsUsage (p : Proc) : Prop := ∃ w ∈ p.out, usageMessage.data <:+: w.2.data

/-! ## Sample environments -/

/-- Home `/home/user`, working directory `/work`. -/
def envWork : Env :=
  { HOME := "/home/user", Getwd := .ok "/work", rangeOrder := ["r", "info"],
    version := "", commitHash := "", description := "Used for get absolute from relative path" }

/-- As `envWork`, with `$HOME` written with a trailing separator. -/
def envSlashHome : Env := { envWork with HOME := "/home/user/" }

/-- As `envWork`, with `$HOME` unset and no working directory. -/
def envBare : Env := { envWork with HOME := "", Getwd := .error "getwd: no such file or directory" }

/-! ## The loop of `Clean` -/

theorem length_dropWhile_le_aux (q : Char → Bool) (l : List Char) :
    (l.dropWhile q).length ≤ l.length := by
  induction l with
  | nil => simp
  | cons a l ih =>
    rw [List.dropWhile_cons]
    split
    · simp; omega
    · simp

theorem cleanLoop_fuel (rooted : Bool) : ∀ (f1 f2 : Nat) (p out : List Char) (dd : Nat),
    p.length ≤ f1 → p.length ≤ f2 →
    cleanLoop rooted f1 p out dd = cleanLoop rooted f2 p out dd := by
  intro f1
  induction f1 with
  | zero =>
    intro f2 p out dd h1 _
    have hp : p = [] := List.length_eq_zero.mp (Nat.le_zero.mp h1)
    subst hp
    cases f2 <;> simp [cleanLoop]
  | succ f1 ih =>
    intro f2 p out dd h1 h2
    cases p with
    | nil => cases f2 <;> simp [cleanLoop]
    | cons c t =>
      cases f2 with
      | zero => simp at h2
      | succ f2 =>
        simp only [List.length_cons, Nat.add_le_add_iff_right] at h1 h2
        have ht : t.tail.length ≤ t.length := by simp
        have hd := length_dropWhile_le_aux (fun x => decide (x ≠ Separator)) t
        have hdc : ¬ IsPathSeparator c →
            ((c :: t).dropWhile (fun x => decide (x ≠ Separator))).length ≤ t.length := by
          intro hc
          rw [List.dropWhile_cons]
          simpa [hc] using hd
        simp only [cleanLoop]
        split_ifs with h1
        all_goals first
          | exact ih _ _ _ _ (by omega) (by omega)
          | exact ih _ _ _ _ (by have := hdc h1; omega) (by have := hdc h1; omega)

theorem seg_takeWhile (e t : List Char) (he : Separator ∉ e) (ht : Bnd t) :
    (e ++ t).takeWhile (fun x => decide (x ≠ Separator)) = e := by
  induction e with
  | nil =>
    rcases ht with rfl | ht
    · rfl
    · cases t with
      | nil => rfl
      | cons a t => simp at ht; subst ht; simp
  | cons a e ih =>
    simp only [List.mem_cons, not_or] at he
    have ha : a ≠ Separator := fun h => he.1 h.symm
    simpa [List.takeWhile_cons, ha] using ih he.2

theorem seg_dropWhile (e t : List Char) (he : Separator ∉ e) (ht : Bnd t) :
    (e ++ t).dropWhile (fun x => decide (x ≠ Separator)) = t := by
  induction e with
  | nil =>
    rcases ht with rfl | ht
    · rfl
    · cases t with
      | nil => rfl
      | cons a t => simp at ht; subst ht; simp
  | cons a e ih =>
    simp only [List.mem_cons, not_or] at he
    have ha : a ≠ Separator := fun h => he.1 h.symm
    simpa [List.dropWhile_cons, ha] using ih he.2

theorem cleanRun_nil (rooted : Bool) (out : List Char) (dd : Nat) :
    cleanRun rooted [] out dd = out := by
  simp [cleanRun, cleanLoop]

theorem cleanRun_sep (rooted : Bool) (t out : List Char) (dd : Nat) :
    cleanRun rooted (Separator :: t) out dd = cleanRun rooted t out dd := by
  simp [cleanRun, cleanLoop]

theorem cleanRun_of_fuel (rooted : Bool) (n : Nat) (p out : List Char) (dd : Nat)
    (h : p.length ≤ n) : cleanLoop rooted n p out dd = cleanRun rooted p out dd :=
  cleanLoop_fuel rooted n p.length p out dd h (Nat.le_refl _)

/-- One iteration of the loop on an input that starts with the element `e`. -/
theorem cleanRun_seg (rooted : Bool) (e t out : List Char) (dd : Nat)
    (he : Seg e) (ht : Bnd t) :
    cleanRun rooted (e ++ t) out dd =
      if e = ['.'] then cleanRun rooted t out dd
      else if e = ['.', '.'] then
        if out.length > dd then cleanRun rooted t (backtrack dd out) dd
        else if rooted = false then
          cleanRun rooted t ('.' :: '.' :: (if out.length > 0 then Separator :: out else out))
            (('.' :: '.' :: (if out.length > 0 then Separator :: out else out)).length)
        else cleanRun rooted t out dd
      else
        cleanRun rooted t
          (e.reverse ++
            (if (rooted = true ∧ out.length ≠ 1) ∨ (rooted = false ∧ out.length ≠ 0)
              then Separator :: out else out)) dd := by
  obtain ⟨hne, hsep⟩ := he
  cases e with
  | nil => exact absurd rfl hne
  | cons c e =>
    have htw := seg_takeWhile (c :: e) t hsep ht
    have hdw := seg_dropWhile (c :: e) t hsep ht
    simp only [List.mem_cons, not_or] at hsep
    have hc : ¬ IsPathSeparator c := fun h => hsep.1 h.symm
    have hdot : (c = '.' ∧ (e ++ t = [] ∨ (e ++ t).head? = some Separator)) ↔ c :: e = ['.'] := by
      constructor
      · rintro ⟨rfl, h⟩
        cases e with
        | nil => rfl
        | cons a e =>
          rcases h with h | h
          · simp at h
          · simp at h; subst h; simp at hsep
      · intro h
        simp only [List.cons.injEq] at h
        obtain ⟨rfl, rfl⟩ := h
        refine ⟨rfl, ?_⟩
        simpa [Bnd] using ht
    have hdd : (c = '.' ∧ (e ++ t).head? = some '.' ∧
        ((e ++ t).tail = [] ∨ (e ++ t).tail.head? = some Separator)) ↔ c :: e = ['.', '.'] := by
      constructor
      · rintro ⟨rfl, h1, h2⟩
        cases e with
        | nil =>
          rcases ht with rfl | ht
          · simp at h1
          · simp [ht] at h1; exact absurd h1 (by decide)
        | cons a e =>
          simp at h1; subst h1
          cases e with
          | nil => rfl
          | cons b e =>
            rcases h2 with h2 | h2
            · simp at h2
            · simp at h2; subst h2; simp at hsep
      · intro h
        simp only [List.cons.injEq] at h
        obtain ⟨rfl, rfl⟩ := h
        refine ⟨rfl, by simp, ?_⟩
        simpa [Bnd] using ht
    have hlen1 : t.length ≤ (e ++ t).length := by simp
    have hlen2 : t.length ≤ (e ++ t).tail.length ∨ e = [] := by
      cases e with
      | nil => right; rfl
      | cons a e => left; simp
    show cleanLoop rooted ((e ++ t).length + 1) (c :: (e ++ t)) out dd = _
    simp only [cleanLoop, if_neg hc, hdot, hdd]
    by_cases h1 : c :: e = ['.']
    · simp only [if_pos h1]
      simp only [List.cons.injEq] at h1
      obtain ⟨rfl, rfl⟩ := h1
      rfl
    · simp only [if_neg h1]
      by_cases h2 : c :: e = ['.', '.']
      · simp only [if_pos h2]
        simp only [List.cons.injEq] at h2
        obtain ⟨rfl, rfl⟩ := h2
        simp only [List.singleton_append, List.tail_cons, List.length_cons]
        split_ifs <;> exact cleanRun_of_fuel _ _ _ _ _ (by omega)
      · simp only [if_neg h2]
        rw [show c :: (e ++ t) = (c :: e) ++ t from rfl, htw, hdw]
        split_ifs <;> exact cleanRun_of_fuel _ _ _ _ _ (by omega)

/-- The iteration on a rooted path. -/
theorem cleanRun_seg_rooted (e t out : List Char) (he : Seg e) (ht : Bnd t) :
    cleanRun true (e ++ t) out 1 =
      if e = ['.'] then cleanRun true t out 1
      else if e = ['.', '.'] then
        if out.length > 1 then cleanRun true t (backtrack 1 out) 1 else cleanRun true t out 1
      else cleanRun true t (e.reverse ++ sepRooted out) 1 := by
  rw [cleanRun_seg true e t out 1 he ht]
  simp [sepRooted]

/-- Every input splits into a separator-free prefix and a rest that starts at
an element boundary. -/
theorem split_seg (p : List Char) : ∃ e t, p = e ++ t ∧ Separator ∉ e ∧ Bnd t := by
  induction p with
  | nil => exact ⟨[], [], rfl, by simp, Or.inl rfl⟩
  | cons a l ih =>
    by_cases ha : a = Separator
    · exact ⟨[], a :: l, rfl, by simp, Or.inr (by simp [ha])⟩
    · obtain ⟨e, t, h1, h2, h3⟩ := ih
      refine ⟨a :: e, t, by simp [h1], ?_, h3⟩
      simp only [List.mem_cons, not_or]
      exact ⟨fun h => ha h.symm, h2⟩

theorem sepRooted_length (out : List Char) (h : out ≠ []) : (sepRooted out).length ≥ 1 := by
  have := List.length_pos.mpr h
  unfold sepRooted
  split_ifs
  · simp
  · omega

theorem backtrack_push (l out : List Char) (hl : l ≠ []) (hsep : Separator ∉ l)
    (hout : out ≠ []) : backtrack 1 (l ++ sepRooted out) = out := by
  have hpos : 0 < out.length := List.length_pos.mpr hout
  induction l with
  | nil => exact absurd rfl hl
  | cons a l ih =>
    simp only [List.mem_cons, not_or] at hsep
    have ha : ¬ IsPathSeparator a := fun h => hsep.1 h.symm
    cases l with
    | nil =>
      unfold sepRooted
      by_cases h1 : out.length = 1
      · simp [backtrack, h1]
      · have h2 : 1 < out.length := by omega
        simp [backtrack, h1, ha, h2, hout]
    | cons b l =>
      have hlen : 1 < (b :: l ++ sepRooted out).length := by
        have := sepRooted_length out hout
        simp only [List.cons_append, List.length_cons, List.length_append]
        omega
      rw [List.cons_append, backtrack, if_pos ⟨hlen, ha⟩]
      exact ih (by simp) hsep.2

theorem Canon.ne_nil {out : List Char} (h : Canon out) : out ≠ [] := by
  cases h with
  | root => simp
  | push hc hn =>
    obtain ⟨⟨hne, _⟩, _⟩ := hn
    simp [hne]

theorem Canon.eq_root {out : List Char} (h : Canon out) (hlen : out.length = 1) :
    out = [Separator] := by
  cases h with
  | root => rfl
  | @push out e hc hn =>
    obtain ⟨⟨hne, _⟩, _⟩ := hn
    have h1 := sepRooted_length out hc.ne_nil
    have h2 : 0 < e.length := List.length_pos.mpr hne
    simp at hlen
    omega

theorem Canon.pop {out : List Char} (h : Canon out) (hlen : out.length > 1) :
    Canon (backtrack 1 out) := by
  cases h with
  | root => simp at hlen
  | @push out e hc hn =>
    obtain ⟨⟨hne, hsep⟩, _⟩ := hn
    rw [backtrack_push e.reverse out (by simpa using hne) (by simpa using hsep) hc.ne_nil]
    exact hc

/-- On a rooted path the loop keeps the buffer canonical. -/
theorem cleanRun_canon : ∀ (n : Nat) (p out : List Char), p.length ≤ n → Canon out →
    Canon (cleanRun true p out 1) := by
  intro n
  induction n with
  | zero =>
    intro p out hp hc
    have : p = [] := List.length_eq_zero.mp (Nat.le_zero.mp hp)
    subst this
    rw [cleanRun_nil]; exact hc
  | succ n ih =>
    intro p out hp hc
    cases p with
    | nil => rw [cleanRun_nil]; exact hc
    | cons c t =>
      simp only [List.length_cons, Nat.add_le_add_iff_right] at hp
      by_cases hsep : c = Separator
      · subst hsep
        rw [cleanRun_sep]
        exact ih t out hp hc
      · obtain ⟨e, u, h1, h2, h3⟩ := split_seg t
        have hseg : Seg (c :: e) := by
          refine ⟨by simp, ?_⟩
          simp only [List.mem_cons, not_or]
          exact ⟨fun h => hsep h.symm, h2⟩
        have hu : u.length ≤ n := by
          have : t.length = e.length + u.length := by rw [h1]; simp
          omega
        have hpe : c :: t = (c :: e) ++ u := by simp [h1]
        rw [hpe, cleanRun_seg_rooted (c :: e) u out hseg h3]
        split_ifs with k1 k2 k3
        · exact ih u out hu hc
        · exact ih u _ hu (hc.pop k3)
        · exact ih u out hu hc
        · exact ih u _ hu (Canon.push hc ⟨hseg, k1, k2⟩)

theorem Canon.reverse_head {out : List Char} (h : Canon out) :
    ∃ l, out.reverse = Separator :: l := by
  induction h with
  | root => exact ⟨[], rfl⟩
  | @push out e _ _ ih =>
    obtain ⟨l, hl⟩ := ih
    unfold sepRooted
    split_ifs
    · exact ⟨l ++ Separator :: e, by simp [hl]⟩
    · exact ⟨l ++ e, by simp [hl]⟩

/-- Reading back a canonical buffer rebuilds it. -/
theorem cleanRun_replay {out : List Char} (h : Canon out) :
    ∀ t, Bnd t → cleanRun true (out.reverse.tail ++ t) [Separator] 1 = cleanRun true t out 1 := by
  induction h with
  | root => intro t _; rfl
  | @push out e hc hn ih =>
    intro t ht
    obtain ⟨hseg, hd, hdd⟩ := hn
    obtain ⟨l, hl⟩ := hc.reverse_head
    by_cases hlen : out.length = 1
    · have hroot := hc.eq_root hlen
      subst hroot
      have h1 : (e.reverse ++ sepRooted [Separator]).reverse.tail = e := by simp [sepRooted]
      rw [h1, cleanRun_seg_rooted e t _ hseg ht, if_neg hd, if_neg hdd]
    · have h1 : (e.reverse ++ sepRooted out).reverse.tail ++ t =
          out.reverse.tail ++ (Separator :: (e ++ t)) := by
        simp [sepRooted, hlen, hl]
      have h2 : sepRooted out = Separator :: out := by simp [sepRooted, hlen]
      rw [h1, ih (Separator :: (e ++ t)) (Or.inr rfl), cleanRun_sep, cleanRun_seg_rooted e t _ hseg ht, if_neg hd,
        if_neg hdd, h2]

/-- A trailing separator does not change what the loop computes. -/
theorem cleanRun_trailing (rooted : Bool) : ∀ (n : Nat) (p out : List Char) (dd : Nat),
    p.length ≤ n → cleanRun rooted (p ++ [Separator]) out dd = cleanRun rooted p out dd := by
  intro n
  induction n with
  | zero =>
    intro p out dd hp
    have : p = [] := List.length_eq_zero.mp (Nat.le_zero.mp hp)
    subst this
    rw [List.nil_append, cleanRun_sep]
  | succ n ih =>
    intro p out dd hp
    cases p with
    | nil => rw [List.nil_append, cleanRun_sep]
    | cons c t =>
      simp only [List.length_cons, Nat.add_le_add_iff_right] at hp
      by_cases hsep : c = Separator
      · subst hsep
        rw [List.cons_append, cleanRun_sep, cleanRun_sep]
        exact ih t out dd hp
      · obtain ⟨e, u, h1, h2, h3⟩ := split_seg t
        have hseg : Seg (c :: e) := by
          refine ⟨by simp, ?_⟩
          simp only [List.mem_cons, not_or]
          exact ⟨fun h => hsep h.symm, h2⟩
        have hu : u.length ≤ n := by
          have : t.length = e.length + u.length := by rw [h1]; simp
          omega
        have h3s : Bnd (u ++ [Separator]) := by
          rcases h3 with rfl | h3
          · exact Or.inr rfl
          · cases u with
            | nil => simp at h3
            | cons a u => exact Or.inr (by simpa using h3)
        have hpe : c :: t = (c :: e) ++ u := by simp [h1]
        rw [hpe, List.append_assoc, cleanRun_seg rooted (c :: e) u out dd hseg h3,
          cleanRun_seg rooted (c :: e) (u ++ [Separator]) out dd hseg h3s]
        split_ifs <;> exact ih u _ _ hu

theorem IsAbs_iff (path : String) : IsAbs path = true ↔ ∃ t, path.data = Separator :: t := by
  unfold IsAbs HasPrefix
  cases h : path.data with
  | nil => simp [List.isPrefixOf]
  | cons a t =>
    have : "/".data = [Separator] := rfl
    simp only [this, List.isPrefixOf, Bool.and_true, beq_iff_eq, List.cons.injEq]
    constructor
    · intro h1; exact ⟨t, h1.symm, rfl⟩
    · rintro ⟨_, h1, _⟩; exact h1.symm

/-- What `Clean` computes on a rooted path. -/
theorem Clean_rooted (path : String) (t : List Char) (h : path.data = Separator :: t) :
    Clean path = ⟨(cleanRun true t [Separator] 1).reverse⟩ ∧
      Canon (cleanRun true t [Separator] 1) := by
  have hc : Canon (cleanRun true t [Separator] 1) :=
    cleanRun_canon t.length t _ (Nat.le_refl _) Canon.root
  refine ⟨?_, hc⟩
  have hne : path ≠ "" := by
    intro h0
    rw [h0] at h
    exact List.noConfusion h
  have hlen : ¬ (cleanRun true t [Separator] 1).length = 0 := by
    intro h0
    exact hc.ne_nil (List.length_eq_zero.mp h0)
  unfold Clean
  rw [if_neg hne]
  simp only [h, List.head?_cons, decide_True, if_true, List.drop_succ_cons, List.drop_zero,
    List.length_cons]
  rw [cleanRun_of_fuel true _ t _ 1 (by omega)]
  simp only [if_neg hlen]

/-- On absolute paths `Clean` yields an absolute path and is idempotent. -/
theorem Clean_abs (path : String) (h : IsAbs path = true) :
    IsAbs (Clean path) = true ∧ Clean (Clean path) = Clean path := by
  obtain ⟨t, ht⟩ := (IsAbs_iff path).mp h
  obtain ⟨h1, hc⟩ := Clean_rooted path t ht
  obtain ⟨l, hl⟩ := hc.reverse_head
  have hd : (Clean path).data = Separator :: l := by rw [h1]; exact hl
  refine ⟨(IsAbs_iff _).mpr ⟨l, hd⟩, ?_⟩
  obtain ⟨h2, _⟩ := Clean_rooted (Clean path) l hd
  rw [h2]
  have hl2 : l = (cleanRun true t [Separator] 1).reverse.tail := by rw [hl]; rfl
  have := cleanRun_replay hc [] (Or.inl rfl)
  rw [List.append_nil, ← hl2, cleanRun_nil] at this
  rw [this, h1]

/-- A trailing separator does not change the result of `Clean`. -/
theorem Clean_trailing (path : String) (h : path ≠ "") :
    Clean (path ++ "/") = Clean path := by
  have hd : path.data ≠ [] := by
    intro h0
    apply h
    exact String.ext h0
  have hne : path ++ "/" ≠ "" := by
    intro h0
    have := congrArg String.data h0
    simp [String.data_append] at this
  obtain ⟨c, t, hct⟩ := List.exists_cons_of_ne_nil hd
  have hdata : (path ++ "/").data = c :: (t ++ [Separator]) := by
    rw [String.data_append, hct]; rfl
  unfold Clean
  rw [if_neg h, if_neg hne]
  simp only [hdata, hct, List.head?_cons]
  by_cases hc : c = Separator
  · subst hc
    simp only [decide_True, if_true, List.drop_succ_cons, List.drop_zero]
    rw [cleanRun_of_fuel true _ _ _ 1 (by simp), cleanRun_of_fuel true _ t _ 1 (by simp),
      cleanRun_trailing true t.length t _ 1 (Nat.le_refl _)]
  · have hc2 : ¬ (some c = some Separator) := by simpa using hc
    simp only [hc2, decide_False, Bool.false_eq_true, if_false, List.drop_zero]
    rw [cleanRun_of_fuel false _ _ _ 0 (by simp), cleanRun_of_fuel false _ (c :: t) _ 0 (by simp),
      ← List.cons_append, cleanRun_trailing false (c :: t).length (c :: t) _ 0 (Nat.le_refl _)]

theorem Clean_ne_empty (path : String) : Clean path ≠ "" := by
  unfold Clean
  split_ifs with h
  · decide
  · intro h0
    have h1 := congrArg String.data h0
    simp only at h1
    generalize cleanLoop _ _ _ _ _ = out at h1
    cases out with
    | nil => simp at h1
    | cons a l => simp at h1

theorem IsAbs_ne_empty (path : String) (h : IsAbs path = true) : path ≠ "" := by
  intro h0
  subst h0
  exact absurd h (by decide)

theorem IsAbs_append (a b : String) (h : IsAbs a = true) : IsAbs (a ++ b) = true := by
  obtain ⟨t, ht⟩ := (IsAbs_iff a).mp h
  exact (IsAbs_iff _).mpr ⟨t ++ b.data, by rw [String.data_append, ht]; rfl⟩

theorem Join_pair (a b : String) (h : a ≠ "") : Join [a, b] = Clean (a ++ "/" ++ b) := by
  simp [Join, stringsJoin, h]

/-- What `Abs` returns is absolute and clean when the working directory is absolute. -/
theorem Abs_abs (env : Env) (path a : String)
    (hwd : ∀ cwd, env.Getwd = .ok cwd → IsAbs cwd = true) (h : Abs env path = .ok a) :
    IsAbs a = true ∧ Clean a = a := by
  unfold Abs at h
  split_ifs at h with h1
  · injection h with h
    subst h
    exact Clean_abs path h1
  · cases hg : env.Getwd with
    | error err => rw [hg] at h; exact Except.noConfusion h
    | ok wd =>
      rw [hg] at h
      injection h with h
      subst h
      have hw := hwd wd hg
      rw [Join_pair wd path (IsAbs_ne_empty wd hw)]
      exact Clean_abs _ (IsAbs_append _ _ (IsAbs_append _ _ hw))

theorem resolvePath_plain (env : Env) (p : String) (hne : p ≠ "")
    (ht : HasPrefix p "~" = false) :
    resolvePath env p =
      match Abs env p with
      | .error err =>
        ("", some (.statusErr
          { Status := EINVAL, Message := "failed to resolve absolute path: " ++ err }))
      | .ok absPath => (Clean absPath, none) := by
  simp [resolvePath, hne, ht]

theorem Abs_of_abs (env : Env) (path : String) (h : IsAbs path = true) :
    Abs env path = .ok (Clean path) := by
  simp [Abs, h]

theorem IsAbs_trailing (path : String) (h : path ≠ "") : IsAbs (path ++ "/") = IsAbs path := by
  have hd : path.data ≠ [] := fun h0 => h (String.ext h0)
  obtain ⟨c, t, hct⟩ := List.exists_cons_of_ne_nil hd
  unfold IsAbs HasPrefix
  rw [String.data_append, hct]
  show [Separator].isPrefixOf (c :: t ++ "/".data) = [Separator].isPrefixOf (c :: t)
  simp [List.isPrefixOf]

theorem append_ne_empty (a b : String) (h : a ≠ "") : a ++ b ≠ "" := by
  intro h0
  have h1 := congrArg String.data h0
  rw [String.data_append] at h1
  have h2 : a.data = [] := (List.append_eq_nil.mp h1).1
  exact h (String.ext h2)

theorem Join_trailing (wd path : String) (h : path ≠ "") :
    Join [wd, path ++ "/"] = Join [wd, path] := by
  by_cases hw : wd = ""
  · subst hw
    have h1 : path ++ "/" ≠ "" := append_ne_empty _ _ h
    simp only [Join, ne_eq, not_true_eq_false, if_false, h, h1, not_false_eq_true, if_true,
      stringsJoin]
    exact Clean_trailing path h
  · rw [Join_pair _ _ hw, Join_pair _ _ hw, ← String.append_assoc]
    exact Clean_trailing _ (append_ne_empty _ _ (append_ne_empty _ _ hw))

theorem Abs_trailing (env : Env) (path : String) (h : path ≠ "") :
    Abs env (path ++ "/") = Abs env path := by
  unfold Abs
  rw [IsAbs_trailing path h, Clean_trailing path h]
  cases env.Getwd with
  | error err => rfl
  | ok wd => simp only [Join_trailing wd path h]

theorem resolvePath_eq (env : Env) (p : String) (hne : p ≠ "") :
    resolvePath env p =
      match tildePart env p with
      | .error err =>
        ("", some (.statusErr
          { Status := EIO, Message := "failed to get home directory: " ++ err }))
      | .ok path =>
        match Abs env path with
        | .error err =>
          ("", some (.statusErr
            { Status := EINVAL, Message := "failed to resolve absolute path: " ++ err }))
        | .ok absPath => (Clean absPath, none) := by
  unfold resolvePath tildePart
  rw [if_neg hne]

/-- The form of every successful result of `resolvePath`. -/
theorem resolvePath_ok (env : Env) (p q : String) (h : resolvePath env p = (q, none)) :
    ∃ x a, Abs env x = .ok a ∧ q = Clean a := by
  by_cases hne : p = ""
  · subst hne
    cases h
  · rw [resolvePath_eq env p hne] at h
    cases ht : tildePart env p with
    | error err => rw [ht] at h; cases h
    | ok x =>
      rw [ht] at h
      simp only at h
      cases ha : Abs env x with
      | error err => rw [ha] at h; cases h
      | ok a =>
        rw [ha] at h
        injection h with h _
        exact ⟨x, a, ha, h.symm⟩

theorem Canon.head {out : List Char} (h : Canon out) :
    out = [Separator] ∨ out.head? ≠ some Separator := by
  cases h with
  | root => exact Or.inl rfl
  | @push out e hc hn =>
    right
    obtain ⟨⟨hne, hsep⟩, _⟩ := hn
    obtain ⟨a, l, hal⟩ := List.exists_cons_of_ne_nil (by simpa using hne : e.reverse ≠ [])
    have ha : a ∈ e := by
      have : a ∈ e.reverse := by rw [hal]; simp
      simpa using this
    rw [hal]
    simp only [List.cons_append, List.head?_cons, ne_eq, Option.some.injEq]
    intro h0
    exact hsep (h0 ▸ ha)

/-- The result of `Clean` on an absolute path has no trailing separator, the
root apart. -/
theorem Clean_abs_last (path : String) (h : IsAbs path = true) :
    Clean path = "/" ∨ (Clean path).data.getLast? ≠ some Separator := by
  obtain ⟨t, ht⟩ := (IsAbs_iff path).mp h
  obtain ⟨h1, hc⟩ := Clean_rooted path t ht
  rcases hc.head with h2 | h2
  · left; rw [h1, h2]; rfl
  · right; rw [h1]; simpa using h2

theorem joinNames_snoc (names : List (List Char)) (e : List Char) (h : names ≠ []) :
    joinNames (names ++ [e]) = joinNames names ++ Separator :: e := by
  induction names with
  | nil => exact absurd rfl h
  | cons a l ih =>
    cases l with
    | nil => simp [joinNames]
    | cons b l =>
      have := ih (by simp)
      simp only [List.cons_append] at this
      simp [joinNames, this]

/-- A canonical buffer spells the root followed by real elements with single
separators between them. -/
theorem Canon.names {out : List Char} (h : Canon out) :
    ∃ names, (∀ e ∈ names, Name e) ∧ out.reverse = Separator :: joinNames names := by
  induction h with
  | root => exact ⟨[], by simp, rfl⟩
  | @push out e hc hn ih =>
    obtain ⟨names, hall, hrev⟩ := ih
    by_cases hlen : out.length = 1
    · have hroot := hc.eq_root hlen
      subst hroot
      exact ⟨[e], by simpa using hn, by simp [sepRooted, joinNames]⟩
    · have hne : names ≠ [] := by
        intro h0
        subst h0
        have := congrArg List.length hrev
        simp [joinNames] at this
        exact hlen this
      refine ⟨names ++ [e], ?_, ?_⟩
      · intro x hx
        rcases List.mem_append.mp hx with hx | hx
        · exact hall x hx
        · simp only [List.mem_singleton] at hx
          rw [hx]; exact hn
      · rw [joinNames_snoc names e hne]
        simp [sepRooted, hlen, hrev]

/-- The shape of what `Clean` returns on an absolute path. -/
theorem Clean_abs_names (path : String) (h : IsAbs path = true) :
    ∃ names, (∀ e ∈ names, Name e) ∧ (Clean path).data = Separator :: joinNames names := by
  obtain ⟨t, ht⟩ := (IsAbs_iff path).mp h
  obtain ⟨h1, hc⟩ := Clean_rooted path t ht
  obtain ⟨names, hall, hrev⟩ := hc.names
  exact ⟨names, hall, by rw [h1]; exact hrev⟩

theorem str_mk_ne (l : List Char) (s : String) (h : l ≠ s.data) : String.mk l ≠ s :=
  fun e => h (congrArg String.data e)

theorem tildePart_slash (env : Env) (h r : String) (hh : UserHomeDir env = .ok h)
    (hr : r ≠ "") : tildePart env ("~/" ++ r) = .ok (Join [h, r]) := by
  obtain ⟨rd⟩ := r
  have hrd : rd ≠ [] := fun h0 => hr (by rw [h0])
  obtain ⟨c, t, hct⟩ := List.exists_cons_of_ne_nil hrd
  subst hct
  show tildePart env ⟨'~' :: '/' :: c :: t⟩ = _
  have h1 : HasPrefix ⟨'~' :: '/' :: c :: t⟩ "~" = true := rfl
  have h2 : (⟨'~' :: '/' :: c :: t⟩ : String) ≠ "~" :=
    str_mk_ne _ _ (by intro e; cases e)
  have h3 : (⟨'~' :: '/' :: c :: t⟩ : String) ≠ "~/" :=
    str_mk_ne _ _ (by intro e; cases e)
  have h4 : HasPrefix ⟨'~' :: '/' :: c :: t⟩ "~/" = true := by
    show ['~', '/'].isPrefixOf ('~' :: '/' :: c :: t) = true
    simp [List.isPrefixOf]
  simp only [tildePart, h1, if_true, hh, h2, h3, if_false, h4]
  rfl

theorem tildePart_other (env : Env) (h s : String) (hh : UserHomeDir env = .ok h)
    (hs : s ≠ "") (hsep : HasPrefix s "/" = false) :
    tildePart env ("~" ++ s) = .ok (Join [h, s]) := by
  obtain ⟨sd⟩ := s
  have hsd : sd ≠ [] := fun h0 => hs (by rw [h0])
  obtain ⟨c, t, hct⟩ := List.exists_cons_of_ne_nil hsd
  subst hct
  have hc : c ≠ '/' := by
    intro h0
    subst h0
    exact absurd hsep (by show ¬ (['/'].isPrefixOf ('/' :: t) = false); simp [List.isPrefixOf])
  show tildePart env ⟨'~' :: c :: t⟩ = _
  have h1 : HasPrefix ⟨'~' :: c :: t⟩ "~" = true := rfl
  have h2 : (⟨'~' :: c :: t⟩ : String) ≠ "~" :=
    str_mk_ne _ _ (by intro e; cases e)
  have h3 : (⟨'~' :: c :: t⟩ : String) ≠ "~/" :=
    str_mk_ne _ _ (by
      intro e
      injection e with _ e
      injection e with e _
      exact hc e)
  have h4 : HasPrefix ⟨'~' :: c :: t⟩ "~/" = false := by
    show ['~', '/'].isPrefixOf ('~' :: c :: t) = false
    simp [List.isPrefixOf, Ne.symm hc]
  simp only [tildePart, h1, if_true, hh, h2, h3, if_false, h4, Bool.false_eq_true]
  rfl

/-- Resolving a path whose tilde expansion is `Join(h, x)`, for an absolute
home directory `h`. -/
theorem resolvePath_join (env : Env) (p h x : String) (hne : p ≠ "")
    (ht : tildePart env p = .ok (Join [h, x])) (habs : IsAbs h = true) :
    resolvePath env p = (Join [h, x], none) := by
  have hj := Join_pair h x (IsAbs_ne_empty h habs)
  have hrooted : IsAbs (h ++ "/" ++ x) = true := IsAbs_append _ _ (IsAbs_append _ _ habs)
  obtain ⟨h1, h2⟩ := Clean_abs _ hrooted
  rw [resolvePath_eq env p hne, ht]
  simp only
  rw [hj, Abs_of_abs env _ h1]
  simp only [h2]

/-- The two outcomes of `resolvePath`. -/
theorem resolvePath_cases (env : Env) (p : String) :
    (∃ q, q ≠ "" ∧ resolvePath env p = (q, none)) ∨
    (∃ e, resolvePath env p = ("", some (.statusErr e)) ∧ (e.Status = 2 ∨ e.Status = 5)) := by
  by_cases hne : p = ""
  · subst hne
    exact Or.inr ⟨_, rfl, Or.inl rfl⟩
  · rw [resolvePath_eq env p hne]
    cases tildePart env p with
    | error err => exact Or.inr ⟨_, rfl, Or.inr rfl⟩
    | ok x =>
      simp only
      cases Abs env x with
      | error err => exact Or.inr ⟨_, rfl, Or.inl rfl⟩
      | ok a => exact Or.inl ⟨Clean a, Clean_ne_empty a, rfl⟩

theorem perm_allowed (order : List String) (h : order.Perm allowedFirstArgs) :
    order = ["r", "info"] ∨ order = ["info", "r"] := by
  have hlen : order.length = 2 := h.length_eq
  have hnd : order.Nodup := h.nodup_iff.mpr (by decide)
  match order, hlen with
  | [a, b], _ =>
    have ha : a ∈ allowedFirstArgs := h.subset (by simp)
    have hb : b ∈ allowedFirstArgs := h.subset (by simp)
    have hab : a ≠ b := by
      intro e
      subst e
      simp at hnd
    simp only [allowedFirstArgs, List.mem_cons, List.mem_singleton, List.not_mem_nil,
      or_false] at ha hb
    rcases ha with rfl | rfl <;> rcases hb with rfl | rfl
    · exact absurd rfl hab
    · exact Or.inl rfl
    · exact Or.inr rfl
    · exact absurd rfl hab

theorem ValidateFirstArg_status (order : List String) (arg : String) (e : StatusErr)
    (h : ValidateFirstArg order arg = some e) : e.Status = 2 := by
  unfold ValidateFirstArg at h
  split_ifs at h
  injection h with h
  rw [← h]
  rfl

theorem Parse_flag_value (path : String) : Parse ["-f", path] "" = .ok path := rfl

/-! ## The path resolver -/

/-- C4: `resolvePath("")` fails in every environment: it returns the empty
path and a `StatusErr` with status `EINVAL` = 2 and message
"path cannot be empty". -/
theorem C4_resolvePath_empty (env : Env) :
    resolvePath env "" =
      ("", some (.statusErr { Status := 2, Message := "path cannot be empty" })) ∧
    EINVAL = 2 := by
  exact ⟨rfl, rfl⟩

/-- C9: an absolute path that is already clean is returned unchanged, whatever
`$HOME` holds and whatever the working-directory lookup returns (its failure
included). -/
theorem C9_resolvePath_idempotent (env : Env) (p : String) (habs : IsAbs p = true)
    (hclean : Clean p = p) : resolvePath env p = (p, none) := by
  obtain ⟨t, ht⟩ := (IsAbs_iff p).mp habs
  have htilde : HasPrefix p "~" = false := by
    unfold HasPrefix
    rw [ht]
    rfl
  rw [resolvePath_plain env p (IsAbs_ne_empty p habs) htilde]
  simp [Abs, habs, hclean]

theorem C9_resolvePath_idempotent_witness :
    resolvePath envBare "/var/lib/rpm" = ("/var/lib/rpm", none) :=
  C9_resolvePath_idempotent envBare "/var/lib/rpm" (by decide) (by decide)

/-- C1 (as stated) fails on an absolute path: with working directory `/work`,
`/etc` resolves to `/etc`, not to `Clean(Join("/work", "/etc"))` = `/work/etc`. -/
theorem C1_counterexample :
    "/etc" ≠ "" ∧ HasPrefix "/etc" "~" = false ∧ envWork.Getwd = .ok "/work" ∧
    resolvePath envWork "/etc" = ("/etc", none) ∧
    Clean (Join ["/work", "/etc"]) = "/work/etc" ∧
    resolvePath envWork "/etc" ≠ (Clean (Join ["/work", "/etc"]), none) := by
  refine ⟨by decide, by decide, rfl, by decide, by decide, by decide⟩

/-- C1 (amended): for a non-empty path `p` that does not begin with `~` and a
working directory `cwd` returned by a successful lookup, `resolvePath(p)`
succeeds; the result is `Clean(Join(cwd, p))` when `p` is relative and
`Clean(p)` when `p` is absolute (the working directory is then not joined); and
when `cwd` is absolute the result is an absolute, normalized path. -/
theorem C1_resolvePath_plain_path (env : Env) (p cwd : String) (hne : p ≠ "")
    (ht : HasPrefix p "~" = false) (hcwd : env.Getwd = .ok cwd) :
    (IsAbs p = false → resolvePath env p = (Clean (Join [cwd, p]), none)) ∧
    (IsAbs p = true → resolvePath env p = (Clean p, none)) ∧
    (IsAbs cwd = true →
      ∃ q, resolvePath env p = (q, none) ∧ IsAbs q = true ∧ Clean q = q) := by
  have hres := resolvePath_plain env p hne ht
  have hwd : IsAbs cwd = true → ∀ c, env.Getwd = .ok c → IsAbs c = true := by
    intro h c hc
    rw [hcwd] at hc
    injection hc with hc
    rw [← hc]; exact h
  refine ⟨?_, ?_, ?_⟩
  · intro h
    rw [hres]
    simp [Abs, h, hcwd]
  · intro h
    rw [hres]
    simp only [Abs, h, if_true]
    rw [(Clean_abs p h).2]
  · intro h
    cases ha : Abs env p with
    | error err =>
      unfold Abs at ha
      split_ifs at ha
      rw [hcwd] at ha
      exact Except.noConfusion ha
    | ok a =>
      rw [hres, ha]
      obtain ⟨h1, _⟩ := Abs_abs env p a (hwd h) ha
      exact ⟨Clean a, rfl, Clean_abs a h1⟩

theorem C1_resolvePath_plain_path_witness :
    resolvePath envWork "docs/../a" = (Clean (Join ["/work", "docs/../a"]), none) ∧
    resolvePath envWork "/etc//x/" = (Clean "/etc//x/", none) :=
  ⟨(C1_resolvePath_plain_path envWork "docs/../a" "/work" (by decide) (by decide) rfl).1
      (by decide),
   (C1_resolvePath_plain_path envWork "/etc//x/" "/work" (by decide) (by decide) rfl).2.1
      (by decide)⟩

/-- C2 (as stated) fails when `$HOME` is not a clean path: with
`HOME=/home/user/` the lookup returns `/home/user/` and `resolvePath("~")`
returns `/home/user`. -/
theorem C2_counterexample :
    UserHomeDir envSlashHome = .ok "/home/user/" ∧
    resolvePath envSlashHome "~" = ("/home/user", none) ∧
    resolvePath envSlashHome "~" ≠ ("/home/user/", none) := by
  refine ⟨rfl, by decide, by decide⟩

/-- C2 (amended): for an absolute home directory `h` returned by a successful
lookup, and whatever the working-directory lookup returns, `resolvePath("~")`
succeeds and returns `Clean(h)`; it returns exactly `h` when `h` is already
clean. -/
theorem C2_resolvePath_tilde (env : Env) (h : String) (hh : UserHomeDir env = .ok h)
    (habs : IsAbs h = true) :
    resolvePath env "~" = (Clean h, none) ∧
    (Clean h = h → resolvePath env "~" = (h, none)) := by
  have h1 : resolvePath env "~" = (Clean h, none) := by
    have hp : HasPrefix "~" "~" = true := by decide
    have hne : ¬ ("~" : String) = "" := by decide
    simp only [resolvePath, hne, if_false, hp, if_true, hh, Abs_of_abs env h habs,
      (Clean_abs h habs).2]
  refine ⟨h1, fun hc => ?_⟩
  rw [h1, hc]

theorem C2_resolvePath_tilde_witness :
    resolvePath envWork "~" = ("/home/user", none) ∧
    resolvePath envSlashHome "~" = (Clean "/home/user/", none) :=
  ⟨(C2_resolvePath_tilde envWork "/home/user" rfl (by decide)).2 (by decide),
   (C2_resolvePath_tilde envSlashHome "/home/user/" rfl (by decide)).1⟩

/-- C3: tilde expansion is a literal join under the home directory. For an
absolute home directory `h` returned by a successful lookup: (i) for every
non-empty `r`, `resolvePath("~/" + r)` succeeds and returns `Join(h, r)`;
(ii) for every non-empty `s` that does not begin with the separator,
`resolvePath("~" + s)` succeeds and returns `Join(h, s)`. -/
theorem C3_resolvePath_tilde_join (env : Env) (h : String) (hh : UserHomeDir env = .ok h)
    (habs : IsAbs h = true) :
    (∀ r : String, r ≠ "" → resolvePath env ("~/" ++ r) = (Join [h, r], none)) ∧
    (∀ s : String, s ≠ "" → HasPrefix s "/" = false →
      resolvePath env ("~" ++ s) = (Join [h, s], none)) := by
  have hne : ∀ x : String, "~" ++ x ≠ "" := fun x => append_ne_empty _ _ (by decide)
  have hne2 : ∀ x : String, "~/" ++ x ≠ "" := fun x => append_ne_empty _ _ (by decide)
  refine ⟨fun r hr => ?_, fun s hs hsep => ?_⟩
  · exact resolvePath_join env _ h r (hne2 r) (tildePart_slash env h r hh hr) habs
  · exact resolvePath_join env _ h s (hne s) (tildePart_other env h s hh hs hsep) habs

theorem C3_resolvePath_tilde_join_witness :
    resolvePath envWork ("~/" ++ "docs") = (Join ["/home/user", "docs"], none) ∧
    resolvePath envWork ("~" ++ "otheruser") = (Join ["/home/user", "otheruser"], none) ∧
    Join ["/home/user", "docs"] = "/home/user/docs" ∧
    Join ["/home/user", "otheruser"] = "/home/user/otheruser" :=
  ⟨(C3_resolvePath_tilde_join envWork "/home/user" rfl (by decide)).1 "docs" (by decide),
   (C3_resolvePath_tilde_join envWork "/home/user" rfl (by decide)).2 "otheruser" (by decide)
     (by decide),
   by decide, by decide⟩

/-- C10: every successful result is canonical. In an environment whose
working-directory lookup, when it succeeds, yields an absolute path, a result
`q` of `resolvePath` is absolute and normalized: `Clean(q) = q`, it has no
trailing separator unless it is the root, and it is the root followed by
elements that are non-empty, separator-free and neither `.` nor `..`, with
single separators between them. Moreover `~/` resolves to exactly what `~`
resolves to. -/
theorem C10_resolvePath_canonical (env : Env)
    (hwd : ∀ cwd, env.Getwd = .ok cwd → IsAbs cwd = true) :
    (∀ p q : String, resolvePath env p = (q, none) →
      IsAbs q = true ∧ Clean q = q ∧ (q = "/" ∨ q.data.getLast? ≠ some Separator) ∧
      ∃ names, (∀ e ∈ names, Name e) ∧ q.data = Separator :: joinNames names) ∧
    resolvePath env "~/" = resolvePath env "~" := by
  constructor
  · intro p q h
    obtain ⟨x, a, ha, hq⟩ := resolvePath_ok env p q h
    obtain ⟨h1, _⟩ := Abs_abs env x a hwd ha
    obtain ⟨h2, h3⟩ := Clean_abs a h1
    subst hq
    exact ⟨h2, h3, Clean_abs_last a h1, Clean_abs_names a h1⟩
  · rw [resolvePath_eq env "~/" (by decide), resolvePath_eq env "~" (by decide)]
    have e1 : tildePart env "~/" =
        match UserHomeDir env with
        | .error err => .error err
        | .ok homeDir => .ok (homeDir ++ "/") := rfl
    have e2 : tildePart env "~" =
        match UserHomeDir env with
        | .error err => .error err
        | .ok homeDir => .ok homeDir := rfl
    rw [e1, e2]
    unfold UserHomeDir
    split_ifs with hh
    · simp only [Abs_trailing env env.HOME hh]
    · rfl

theorem C10_resolvePath_canonical_witness :
    resolvePath envWork "~/" = resolvePath envWork "~" ∧
    resolvePath envWork "a//b/../c/" = ("/work/a/c", none) ∧
    (IsAbs "/work/a/c" = true ∧ Clean "/work/a/c" = "/work/a/c" ∧
      (("/work/a/c" : String) = "/" ∨ ("/work/a/c" : String).data.getLast? ≠ some Separator) ∧
      ∃ names, (∀ e ∈ names, Name e) ∧
        ("/work/a/c" : String).data = Separator :: joinNames names) :=
  ⟨(C10_resolvePath_canonical envWork (fun cwd h => by
      have h1 : cwd = "/work" := by injection h with h; exact h.symm
      rw [h1]; decide)).2,
   by decide,
   (C10_resolvePath_canonical envWork (fun cwd h => by
      have h1 : cwd = "/work" := by injection h with h; exact h.symm
      rw [h1]; decide)).1 "a//b/../c/" "/work/a/c" (by decide)⟩

/-! ## The argument validator and the dispatcher -/

/-- C5: `ValidateFirstArg` returns `nil` exactly for "r" and "info"; for every
other string it returns a `StatusErr` with status `EINVAL` = 2 whose message
is the fixed prefix followed by the two allowed names, each once, joined by
", ", in the order in which the map is iterated. -/
theorem C5_ValidateFirstArg (order : List String) (hperm : order.Perm allowedFirstArgs)
    (arg : String) :
    (ValidateFirstArg order arg = none ↔ (arg = "r" ∨ arg = "info")) ∧
    (¬ (arg = "r" ∨ arg = "info") →
      ValidateFirstArg order arg =
          some { Status := 2,
                 Message := "invalid positional arg1. Allowed options are: " ++ "r, info" } ∨
      ValidateFirstArg order arg =
          some { Status := 2,
                 Message := "invalid positional arg1. Allowed options are: " ++ "info, r" }) := by
  have hmem : arg ∈ allowedFirstArgs ↔ (arg = "r" ∨ arg = "info") := by
    simp [allowedFirstArgs]
  constructor
  · unfold ValidateFirstArg
    by_cases h : arg ∈ allowedFirstArgs
    · simp only [h, not_true_eq_false, if_false, true_iff]
      exact hmem.mp h
    · simp only [h, not_false_eq_true, if_true]
      constructor
      · intro h0; cases h0
      · intro h0; exact absurd (hmem.mpr h0) h
  · intro h
    have h1 : arg ∉ allowedFirstArgs := fun h0 => h (hmem.mp h0)
    unfold ValidateFirstArg
    rw [if_pos h1]
    rcases perm_allowed order hperm with ho | ho
    · left; rw [ho]; rfl
    · right; rw [ho]; rfl

theorem C5_ValidateFirstArg_witness :
    (ValidateFirstArg ["info", "r"] "info" = none ↔
      (("info" : String) = "r" ∨ ("info" : String) = "info")) ∧
    (ValidateFirstArg ["info", "r"] "" =
        some { Status := 2,
               Message := "invalid positional arg1. Allowed options are: " ++ "r, info" } ∨
      ValidateFirstArg ["info", "r"] "" =
        some { Status := 2,
               Message := "invalid positional arg1. Allowed options are: " ++ "info, r" }) ∧
    (ValidateFirstArg ["r", "info"] "Info" =
        some { Status := 2,
               Message := "invalid positional arg1. Allowed options are: " ++ "r, info" } ∨
      ValidateFirstArg ["r", "info"] "Info" =
        some { Status := 2,
               Message := "invalid positional arg1. Allowed options are: " ++ "info, r" }) :=
  ⟨(C5_ValidateFirstArg ["info", "r"] (List.Perm.swap _ _ _) "info").1,
   (C5_ValidateFirstArg ["info", "r"] (List.Perm.swap _ _ _) "").2 (by decide),
   (C5_ValidateFirstArg ["r", "info"] (List.Perm.refl _) "Info").2 (by decide)⟩

/-- C6: the exit code of the dispatcher. Without arguments it is 0; with first
argument "info" it is 0 whatever follows; with a first argument other than
"r" and "info" it is 2; with the arguments `r -f path` it is 0 when
`resolvePath(path)` succeeds and otherwise the status of the `StatusErr` that
`resolvePath` returned. -/
theorem C6_mainImpl_exit_code (env : Env) (prog : String) :
    (mainImpl env []).code = 0 ∧ (mainImpl env [prog]).code = 0 ∧
    (∀ rest : List String, (mainImpl env (prog :: "info" :: rest)).code = 0) ∧
    (∀ (arg : String) (rest : List String), arg ≠ "r" → arg ≠ "info" →
      (mainImpl env (prog :: arg :: rest)).code = 2) ∧
    (∀ path : String,
      ((resolvePath env path).2 = none → (mainImpl env [prog, "r", "-f", path]).code = 0) ∧
      (∀ err, (resolvePath env path).2 = some err →
        ∃ e, err = .statusErr e ∧ (mainImpl env [prog, "r", "-f", path]).code = e.Status)) := by
  refine ⟨rfl, rfl, fun rest => rfl, ?_, ?_⟩
  · intro arg rest h1 h2
    have hv : arg ∉ allowedFirstArgs := by simp [allowedFirstArgs, h1, h2]
    simp only [mainImpl, ValidateFirstArg, hv, not_false_eq_true, if_true]
    rfl
  · intro path
    have hm : mainImpl env [prog, "r", "-f", path] =
        match resolvePath env path with
        | (_, some (.statusErr stErr)) => ⟨stErr.Status, [(.stderr, stErr.Message ++ "\n")]⟩
        | (_, some (.other _)) => ⟨EXIT_FAILURE, []⟩
        | (absPath, none) =>
          ⟨SUCCESS, [(.stdout, "Relative path: " ++ path ++ "\n"),
            (.stdout, "Absolute path: " ++ absPath ++ "\n")]⟩ := rfl
    rw [hm]
    rcases resolvePath_cases env path with ⟨q, _, hq⟩ | ⟨e, he, _⟩
    · rw [hq]
      exact ⟨fun _ => rfl, fun err h => by cases h⟩
    · rw [he]
      refine ⟨fun h => (by cases h), fun err h => ?_⟩
      injection h with h
      exact ⟨e, h.symm, rfl⟩

theorem C6_mainImpl_exit_code_witness :
    (mainImpl envWork ["go-releaser", "bad", "-f", "x"]).code = 2 ∧
    (mainImpl envWork ["go-releaser", "r", "-f", "x/../y"]).code = 0 ∧
    (∃ e, GoError.statusErr { Status := 5, Message := "failed to get home directory: $HOME is not defined" } = GoError.statusErr e ∧
      (mainImpl envBare ["go-releaser", "r", "-f", "~/x"]).code = e.Status) :=
  ⟨(C6_mainImpl_exit_code envWork "go-releaser").2.2.2.1 "bad" ["-f", "x"] (by decide) (by decide),
   ((C6_mainImpl_exit_code envWork "go-releaser").2.2.2.2 "x/../y").1 (by decide),
   ((C6_mainImpl_exit_code envBare "go-releaser").2.2.2.2 "~/x").2 _ (by decide)⟩

theorem mainImpl_r (env : Env) (prog : String) (rest : List String) :
    mainImpl env (prog :: "r" :: rest) =
      match Parse rest "" with
      | .fail msg =>
        ⟨EINVAL, [(.stderr, msg ++ "\n"), (.stderr, usageMessage ++ "\n"), (.stderr, printDefaults)]⟩
      | .help => ⟨EINVAL, [(.stderr, usageMessage ++ "\n"), (.stderr, printDefaults)]⟩
      | .ok fileFlag =>
        match resolvePath env fileFlag with
        | (_, some (.statusErr stErr)) => ⟨stErr.Status, [(.stderr, stErr.Message ++ "\n")]⟩
        | (_, some (.other _)) => ⟨EXIT_FAILURE, []⟩
        | (absPath, none) =>
          ⟨SUCCESS, [(.stdout, "Relative path: " ++ fileFlag ++ "\n"),
            (.stdout, "Absolute path: " ++ absPath ++ "\n")]⟩ := rfl

set_option maxRecDepth 20000 in
/-- C7 (as stated) fails when the flag is merely missing: on the arguments
`r` alone flag parsing succeeds, and the process exits with 2 after printing
only "path cannot be empty", not the usage text. -/
theorem C7_counterexample :
    Parse [] "" = .ok "" ∧
    mainImpl envWork ["go-releaser", "r"] = ⟨2, [(.stderr, "path cannot be empty\n")]⟩ ∧
    ¬ PrintsUsage (mainImpl envWork ["go-releaser", "r"]) := by
  refine ⟨rfl, by decide, ?_⟩
  rintro ⟨w, hw, hinf⟩
  have h1 : mainImpl envWork ["go-releaser", "r"] = ⟨2, [(.stderr, "path cannot be empty\n")]⟩ := by
    decide
  rw [h1] at hw
  simp only [List.mem_singleton] at hw
  subst hw
  have h2 := hinf.length_le
  exact absurd h2 (by decide)

/-- C7 (amended): with first argument "r", when flag parsing fails (a parse
error or a help request) the dispatcher prints the usage text and exits with
`EINVAL` = 2; when parsing succeeds and leaves the `-f` value empty (flag
missing, as for the arguments `r` alone) it exits with 2 as well, printing
only "path cannot be empty". -/
theorem C7_mainImpl_flag_failure (env : Env) (prog : String) (rest : List String) :
    ((∀ v, Parse rest "" ≠ .ok v) →
      (mainImpl env (prog :: "r" :: rest)).code = 2 ∧
      PrintsUsage (mainImpl env (prog :: "r" :: rest))) ∧
    (Parse rest "" = .ok "" →
      mainImpl env (prog :: "r" :: rest) = ⟨2, [(.stderr, "path cannot be empty\n")]⟩) := by
  have husage : usageMessage.data <:+: (usageMessage ++ "\n").data := by
    rw [String.data_append]
    exact (List.prefix_append _ _).isInfix
  rw [mainImpl_r]
  constructor
  · intro h
    cases hp : Parse rest "" with
    | ok v => exact absurd hp (h v)
    | fail msg =>
      exact ⟨rfl, (Stream.stderr, usageMessage ++ "\n"), by simp, husage⟩
    | help =>
      exact ⟨rfl, (Stream.stderr, usageMessage ++ "\n"), by simp, husage⟩
  · intro h
    rw [h]
    rfl

theorem C7_mainImpl_flag_failure_witness :
    ((mainImpl envWork ["go-releaser", "r", "-x"]).code = 2 ∧
      PrintsUsage (mainImpl envWork ["go-releaser", "r", "-x"])) ∧
    ((mainImpl envWork ["go-releaser", "r", "-f"]).code = 2 ∧
      PrintsUsage (mainImpl envWork ["go-releaser", "r", "-f"])) ∧
    mainImpl envWork ["go-releaser", "r", "--"] = ⟨2, [(.stderr, "path cannot be empty\n")]⟩ :=
  ⟨(C7_mainImpl_flag_failure envWork "go-releaser" ["-x"]).1 (fun v h => by cases h),
   (C7_mainImpl_flag_failure envWork "go-releaser" ["-f"]).1 (fun v h => by cases h),
   (C7_mainImpl_flag_failure envWork "go-releaser" ["--"]).2 rfl⟩

/-- C8: every error carries a non-zero status and a success carries none.
`resolvePath` returns either a non-empty path without error or the empty path
with a `StatusErr` of status 2 or 5; a non-nil result of `ValidateFirstArg` has
status 2; hence the exit code of `mainImpl` is always 0, 2 or 5, never
`EXIT_FAILURE` = 1 nor `EACCES` = 13. -/
theorem C8_status_invariant (env : Env) :
    (∀ path : String,
      (∃ q, q ≠ "" ∧ resolvePath env path = (q, none)) ∨
      (∃ e, resolvePath env path = ("", some (.statusErr e)) ∧ (e.Status = 2 ∨ e.Status = 5))) ∧
    (∀ (order : List String) (arg : String) (e : StatusErr),
      ValidateFirstArg order arg = some e → e.Status = 2) ∧
    (∀ osArgs : List String,
      ((mainImpl env osArgs).code = 0 ∨ (mainImpl env osArgs).code = 2 ∨
        (mainImpl env osArgs).code = 5) ∧
      (mainImpl env osArgs).code ≠ EXIT_FAILURE ∧ (mainImpl env osArgs).code ≠ EACCES) := by
  refine ⟨resolvePath_cases env, ValidateFirstArg_status, ?_⟩
  have key : ∀ osArgs : List String,
      (mainImpl env osArgs).code = 0 ∨ (mainImpl env osArgs).code = 2 ∨
        (mainImpl env osArgs).code = 5 := by
    intro osArgs
    match osArgs with
    | [] => exact Or.inl rfl
    | [_] => exact Or.inl rfl
    | prog :: arg :: rest =>
      unfold mainImpl
      simp only
      cases hv : ValidateFirstArg env.rangeOrder arg with
      | some e =>
        simp only
        exact Or.inr (Or.inl (ValidateFirstArg_status _ _ e hv))
      | none =>
        simp only
        split_ifs with hinfo
        · exact Or.inl rfl
        · cases Parse rest "" with
          | fail msg => exact Or.inr (Or.inl rfl)
          | help => exact Or.inr (Or.inl rfl)
          | ok v =>
            simp only
            rcases resolvePath_cases env v with ⟨q, _, hq⟩ | ⟨e, he, h2 | h5⟩
            · rw [hq]; exact Or.inl rfl
            · rw [he]; exact Or.inr (Or.inl h2)
            · rw [he]; exact Or.inr (Or.inr h5)
  intro osArgs
  refine ⟨key osArgs, ?_, ?_⟩
  · rcases key osArgs with h | h | h <;> rw [h] <;> decide
  · rcases key osArgs with h | h | h <;> rw [h] <;> decide

theorem C8_status_invariant_witness :
    (mainImpl envBare ["go-releaser", "r", "-f", "~"]).code = 5 ∧
    ((mainImpl envBare ["go-releaser", "r", "-f", "rel"]).code = 0 ∨
      (mainImpl envBare ["go-releaser", "r", "-f", "rel"]).code = 2 ∨
      (mainImpl envBare ["go-releaser", "r", "-f", "rel"]).code = 5) :=
  ⟨by decide, ((C8_status_invariant envBare).2.2 ["go-releaser", "r", "-f", "rel"]).1⟩

end GoReleaser
